import Mathlib

/-!
Verification development for LexRay, the CLDR date-skeleton converter.

Strings are embedded as `List Char`. The frontend TypeScript under
`frontend/app` is translated directly (the CSV line parser, the skeleton
option display, the language-listing route, the backend proxy with its
90-second timeout). The Python backend core (tokenizer, skeleton analyzer,
ambiguity resolver, cross-language mapper, validators) is not part of the
repository snapshot, so those components are modelled from the
specification's component design; each such definition says so in its doc
comment.
-/

namespace LexRay

/-! ## JavaScript string helpers -/

/-- Whitespace as `String.prototype.trim` sees it, restricted to the ASCII
whitespace characters occurring in this domain. -/
def isWS (c : Char) : Bool :=
  c == ' ' || c == '\t' || c == '\n' || c == '\r' || c == '\x0b' || c == '\x0c'

/-- JavaScript `s.trim()`: leading and trailing whitespace removed. -/
def jsTrim (s : List Char) : List Char :=
  List.rdropWhile isWS (List.dropWhile isWS s)

/-! ## The CSV line parser (frontend/app/batch/page.tsx, `parseCSVLine`) -/

/-- Accumulator loop of `parseCSVLine`: one character at a time, a `"` toggles
the quote state, an unquoted `,` closes the current field (trimmed), any other
character is appended to the current field.  `cur` holds the current field in
reverse. -/
def parseCSVLineAux : List Char → List Char → Bool → List (List Char)
  | [], cur, _ => [jsTrim cur.reverse]
  | c :: cs, cur, inQuotes =>
    if c = '"' then parseCSVLineAux cs cur (!inQuotes)
    else if c = ',' ∧ inQuotes = false then
      jsTrim cur.reverse :: parseCSVLineAux cs [] inQuotes
    else parseCSVLineAux cs (c :: cur) inQuotes

/-- `parseCSVLine` from `frontend/app/batch/page.tsx` lines 27-47. -/
def parseCSVLine (line : List Char) : List (List Char) :=
  parseCSVLineAux line [] false

/-- Number of comma characters outside double quotes, the quote state toggling
on each `"` character (stated from the claim's words, to be compared with
`parseCSVLine`). -/
def countUnquotedCommas : List Char → Bool → Nat
  | [], _ => 0
  | c :: cs, inQuotes =>
    if c = '"' then countUnquotedCommas cs (!inQuotes)
    else if c = ',' ∧ inQuotes = false then countUnquotedCommas cs inQuotes + 1
    else countUnquotedCommas cs inQuotes

/-! ## Skeleton option join and split (claim C1) -/

/-- The two-character separator `"; "`. -/
def sepSJ : List Char := [';', ' ']

/-- Modelled from the spec: the backend (not in the snapshot) joins multiple
valid skeletons with `"; "` in textual output (spec section 6, and the comment
in `renderSkeletonOptions`). -/
def joinSkeletons : List (List Char) → List Char
  | [] => []
  | [s] => s
  | s :: rest => s ++ sepSJ ++ joinSkeletons rest

/-- Left-to-right scan splitting on non-overlapping occurrences of `"; "`,
as JavaScript `skeletonText.split('; ')` does
(`frontend/app/batch/page.tsx` line 56). `cur` is the current piece reversed. -/
def splitSJAux : List Char → List Char → List (List Char)
  | [], cur => [cur.reverse]
  | [c], cur => [(c :: cur).reverse]
  | c :: d :: rest, cur =>
    if c = ';' ∧ d = ' ' then cur.reverse :: splitSJAux rest []
    else splitSJAux (d :: rest) (c :: cur)

/-- JavaScript `t.split('; ')`. -/
def splitSJ (t : List Char) : List (List Char) := splitSJAux t []

/-- Whether `"; "` occurs as a substring. -/
def hasSJ : List Char → Bool
  | [] => false
  | [_] => false
  | c :: d :: rest => (c == ';' && d == ' ') || hasSJ (d :: rest)

/-- The display layer's option list: split on `"; "`, trim each piece, drop
empty pieces (`renderSkeletonOptions`, `frontend/app/batch/page.tsx`
line 56). -/
def renderSkeletonOptionList (t : List Char) : List (List Char) :=
  ((splitSJ t).map jsTrim).filter (fun o => !o.isEmpty)

/-! ## The language-listing endpoint (frontend/app/api/languages/route.ts) -/

/-- Directory entry as `readdir(..., { withFileTypes: true })` returns it. -/
structure DirEntry where
  name : List Char
  isFile : Bool
deriving DecidableEq

/-- Character-wise lower casing, as the `i` regex flag and `toLowerCase` use. -/
def lowerList (s : List Char) : List Char := s.map Char.toLower

/-- Suffix tested by the case-insensitive regex of the route. -/
def suffixModerate : List Char := "_moderate.xlsx".data

/-- JavaScript regex test corresponding to the route's case-insensitive
end-anchored pattern on a file name. -/
def matchesModerate (n : List Char) : Bool := suffixModerate.isSuffixOf (lowerList n)

/-- JavaScript replace of the matched end-anchored pattern by the empty
string: the matching suffix is dropped, the rest keeps its case. -/
def stripModerate (n : List Char) : List Char := n.take (n.length - suffixModerate.length)

/-- Response value of GET /api/languages. -/
structure LanguagesResponse where
  status : Nat
  languages : List (List Char)
  error : Option (List Char)
deriving DecidableEq

/-- Outcome of the `readdir` call on the CLDR data directory. -/
inductive ReadDirOutcome
  | ok (entries : List DirEntry)
  | fail
deriving DecidableEq

/-- The filter-map-filter pipeline of the route before sorting: files whose
name matches the moderate-spreadsheet pattern, suffix stripped, any name that
lower-cases to "english" excluded. -/
def languagesListOf (entries : List DirEntry) : List (List Char) :=
  ((entries.filter (fun d => d.isFile && matchesModerate d.name)).map
      (fun d => stripModerate d.name)).filter
    (fun n => !(lowerList n == "english".data))

/-- GET handler of `frontend/app/api/languages/route.ts` lines 6-25.  `cmp`
models the locale-aware comparison `a.localeCompare(b) <= 0`; the JavaScript
sort is modelled by `List.mergeSort`, whose output the engine guarantees to be
sorted by a consistent comparator. -/
def languagesGET (cmp : List Char → List Char → Bool) : ReadDirOutcome → LanguagesResponse
  | .ok entries =>
    { status := 200, languages := (languagesListOf entries).mergeSort cmp, error := none }
  | .fail =>
    { status := 200, languages := [],
      error := some "Could not read CLDR languages".data }

/-! ## The backend proxy (frontend/app/api/process/route.ts) -/

/-- Body the proxy hands back to the POST handler. -/
structure BackendResult where
  success : Bool
  error : Option (List Char)
  csv_content : Option (List Char)
deriving DecidableEq

/-- Outcome of the `fetch` call made under the 90-second abort controller. -/
inductive FetchOutcome
  | ok (body : BackendResult)
  | httpError (status : Nat) (text : List Char)
  | aborted
  | networkError (msg : List Char)
deriving DecidableEq

/-- The proxy's timeout in milliseconds (`setTimeout(() => controller.abort(),
90000)`, route.ts line 18). -/
def BACKEND_TIMEOUT_MS : Nat := 90000

/-- Error message of the timeout branch (route.ts line 47). -/
def timeoutMessage : List Char :=
  "Request timed out. The batch processing is taking too long. Please try with a smaller file or check the backend logs.".data

/-- Exceptions the try block of `callBackendAPI` can raise: `AbortError` when
the abort controller fired, an ordinary `Error` otherwise. -/
inductive JsFetchError
  | abortError
  | error (msg : List Char)
deriving DecidableEq

/-- The try block of `callBackendAPI` (route.ts lines 20-41): a non-ok HTTP
status is thrown as an error, an aborted fetch raises `AbortError`, a network
failure raises an ordinary error; otherwise the parsed body is returned. -/
def fetchBackend : FetchOutcome → Except JsFetchError BackendResult
  | .ok body => .ok body
  | .httpError status text =>
    .error (.error ("Backend API error: ".data ++ (Nat.repr status).data ++ " - ".data ++ text))
  | .aborted => .error .abortError
  | .networkError msg => .error (.error msg)

/-- `callBackendAPI` (route.ts lines 13-56): the catch clause turns every
thrown error into an ordinary result object with `success = false` — the
abort gets the timeout message, anything else the unavailable message. -/
def callBackendAPI (o : FetchOutcome) : BackendResult :=
  match fetchBackend o with
  | .ok r => r
  | .error .abortError =>
    { success := false, error := some timeoutMessage, csv_content := none }
  | .error (.error m) =>
    { success := false, error := some ("Backend API unavailable: ".data ++ m),
      csv_content := none }

/-! ## Core data model

Modelled from the spec: the Python backend package (`backend/src/core`) is not
part of the repository snapshot, so the Reference Catalog, Tokenizer, Skeleton
Analyzer, Ambiguity Resolver, Cross-Language Mapper and Validators below are
built from the specification's data model (section 3) and component design
(section 4). -/

/-- Modelled from the spec: the `field_category` enumeration of a
`CatalogEntry` (spec section 3). -/
inductive FieldCategory
  | month
  | weekday
  | era
  | dayPeriod
  | numericYear
  | numericMonth
  | numericDay
  | literal
  | separator
deriving DecidableEq

/-- Modelled from the spec: the `length_class` enumeration of a
`CatalogEntry`; `numericAny` is the width-insensitive numeric class of spec
section 4.2. -/
inductive LengthClass
  | wide
  | abbreviated
  | narrow
  | short
  | numericWidth (n : Nat)
  | numericAny
deriving DecidableEq

/-- Modelled from the spec: the Formatting/Standalone context of a
vocabulary entry. -/
inductive UseContext
  | formatting
  | standalone
deriving DecidableEq

/-- Modelled from the spec: one Reference Catalog row (spec section 3,
`CatalogEntry`). -/
structure CatalogEntry where
  text : List Char
  field_category : FieldCategory
  length_class : LengthClass
  context : UseContext
  code : List Char
  source_path : List Char
deriving DecidableEq

/-- A per-language Reference Catalog: read-only list of entries. -/
abbrev Catalog := List CatalogEntry

/-- Modelled from the spec: token kinds (spec section 3, `Token`). -/
inductive TokenKind
  | word
  | number
  | punctuation
  | whitespace
deriving DecidableEq

/-- Modelled from the spec: a token with its raw text and start index in the
original string. -/
structure Token where
  raw_text : List Char
  kind : TokenKind
  position : Nat
deriving DecidableEq

/-! ## Tokenizer (modelled from spec section 4.2 and 4.1) -/

/-- Letter class of the embedding (the source uses the Unicode letter
category; the structural tokenizer properties do not depend on the class). -/
def isLetterChar (c : Char) : Bool := c.isAlpha

/-- The separator characters the tokenizer knows; anything not a letter,
digit, whitespace or one of these is an unrecognized symbol. -/
def isKnownPunct (c : Char) : Bool :=
  c == ',' || c == '.' || c == '/' || c == '-' || c == ':' || c == ';' ||
    c == '(' || c == ')' || c == '\''

/-- An unrecognized symbol: not a letter, not a digit, not whitespace, not a
known separator. -/
def isUnrecognizedSymbol (c : Char) : Bool :=
  !(isLetterChar c || c.isDigit || isWS c || isKnownPunct c)

/-- Case-insensitive list-prefix test used for multi-word catalog lookup. -/
def ciIsPrefixList : List Char → List Char → Bool
  | [], _ => true
  | _ :: _, [] => false
  | a :: as, b :: bs => (a.toLower == b.toLower) && ciIsPrefixList as bs

/-- After a candidate multi-word match of length `n`, the next character must
not be a letter (word boundary). -/
def wordBoundaryAfter (n : Nat) (cs : List Char) : Bool :=
  match cs.drop n with
  | [] => true
  | c :: _ => !isLetterChar c

/-- Modelled from the spec: a multi-word catalog entry is applicable at the
current position when its text (words separated by spaces) is a
case-insensitive prefix of the remaining input ending at a word boundary. -/
def mwGuard (e : CatalogEntry) (cs : List Char) : Bool :=
  e.text.contains ' ' && ciIsPrefixList e.text cs &&
    wordBoundaryAfter e.text.length cs &&
    (cs.take e.text.length).all (fun ch => isLetterChar ch || ch == ' ')

/-- Longest applicable multi-word catalog match at the current position
(spec section 4.2: longest match wins). -/
def bestMultiWordLen (cat : Catalog) (cs : List Char) : Option Nat :=
  cat.foldl (fun acc e =>
    if mwGuard e cs then
      match acc with
      | none => some e.text.length
      | some m => if m < e.text.length then some e.text.length else some m
    else acc) none

/-- Modelled from the spec: produce one token at the head of the input
(section 4.2): maximal digit runs (with a glued ordinal suffix kept in the
token text), maximal letter runs with greedy multi-word catalog lookup,
maximal whitespace runs, maximal runs of known separators, and a single
`punctuation` token for any unrecognized symbol. -/
def nextTokenRaw (cat : Catalog) (c : Char) (cs : List Char) :
    (List Char × TokenKind) × List Char :=
  if isWS c then ((c :: cs.takeWhile isWS, .whitespace), cs.dropWhile isWS)
  else if c.isDigit then
    ((c :: (cs.takeWhile Char.isDigit ++
        (cs.dropWhile Char.isDigit).takeWhile isLetterChar), .number),
      (cs.dropWhile Char.isDigit).dropWhile isLetterChar)
  else if isLetterChar c then
    match bestMultiWordLen cat (c :: cs) with
    | some n => (((c :: cs).take n, .word), (c :: cs).drop n)
    | none => ((c :: cs.takeWhile isLetterChar, .word), cs.dropWhile isLetterChar)
  else if isKnownPunct c then
    ((c :: cs.takeWhile isKnownPunct, .punctuation), cs.dropWhile isKnownPunct)
  else (([c], .punctuation), cs)

/-- Left-to-right scan; the fuel argument (initially the input length) only
serves termination, each step consumes at least one character. -/
def tokenizeAux (cat : Catalog) : Nat → Nat → List Char → List Token
  | 0, _, _ => []
  | _ + 1, _, [] => []
  | fuel + 1, pos, c :: cs =>
    let r := nextTokenRaw cat c cs
    ⟨r.1.1, r.1.2, pos⟩ :: tokenizeAux cat fuel (pos + r.1.1.length) r.2

/-- Modelled from the spec: the Tokenizer (spec section 4.2). -/
def tokenize (cat : Catalog) (s : List Char) : List Token :=
  tokenizeAux cat s.length 0 s

/-! ## Skeleton segments and Validators (spec sections 3 and 4.5) -/

/-- Modelled from the spec: one `SkeletonSegment` — a resolved code (keeping
its category and originating raw text), a quoted word literal, or a verbatim
punctuation/whitespace run. -/
inductive Segment
  | code (code : List Char) (cat : FieldCategory) (raw : List Char)
  | litWord (raw : List Char)
  | litRun (raw : List Char)
deriving DecidableEq

/-- Skeleton textual format (spec section 6): codes verbatim, word literals
single-quoted, separator runs verbatim. -/
def renderSegment : Segment → List Char
  | .code c _ _ => c
  | .litWord w => '\'' :: w ++ ['\'']
  | .litRun r => r

/-- Render an ordered segment list to the skeleton string. -/
def renderSkeleton (segs : List Segment) : List Char :=
  (segs.map renderSegment).flatten

/-- Field categories of the field-bearing (non-literal) segments, in order. -/
def fieldCats (segs : List Segment) : List FieldCategory :=
  segs.filterMap (fun s => match s with
    | .code _ cat _ => some cat
    | _ => none)

/-- Modelled from the spec: validation reason codes (spec section 4.5). -/
inductive ValidationError
  | duplicateField
  | invalidValueForField
  | noFieldsFound
deriving DecidableEq

/-- Decimal value of a digit string. -/
def natOfDigits (ds : List Char) : Nat :=
  ds.foldl (fun n c => 10 * n + (c.toNat - 48)) 0

/-- Modelled from the spec: a numeric segment whose originating value is
determinable and out of range for its category (a month above 12, a day
above 31). -/
def segInvalidValue : Segment → Bool
  | .code _ cat raw =>
    if !raw.isEmpty && raw.all Char.isDigit then
      match cat with
      | .numericMonth => decide (12 < natOfDigits raw)
      | .numericDay => decide (31 < natOfDigits raw)
      | _ => false
    else false
  | _ => false

/-- Modelled from the spec: the Validators (spec section 4.5), rules checked
in the listed order: duplicate field categories, out-of-range numeric values,
then the all-literal check. -/
def validateSkeleton (segs : List Segment) : Option ValidationError :=
  if ¬ (fieldCats segs).Nodup then some .duplicateField
  else if segs.any segInvalidValue then some .invalidValueForField
  else if (fieldCats segs).isEmpty then some .noFieldsFound
  else none

/-! ## Skeleton Analyzer (modelled from spec section 4.2) -/

/-- A draft position: either a settled segment or an open choice between
several catalog candidates for the token at that position. -/
inductive PreSeg
  | fixed (seg : Segment)
  | choice (raw : List Char) (cands : List CatalogEntry)
deriving DecidableEq

/-- Catalog entries whose text equals the token case-insensitively. -/
def wordMatches (cat : Catalog) (raw : List Char) : List CatalogEntry :=
  cat.filter (fun e => lowerList e.text == lowerList raw)

/-- Whether a category is one of the numeric field categories. -/
def isNumericCat : FieldCategory → Bool
  | .numericYear => true
  | .numericMonth => true
  | .numericDay => true
  | _ => false

/-- Modelled from the spec: numeric lookup (section 4.2) — `NumericWidth`
entries whose width equals the digit count, width-insensitive numeric codes
only when no exact width match exists. -/
def numericMatches (cat : Catalog) (digits : List Char) : List CatalogEntry :=
  let exact := cat.filter (fun e =>
    isNumericCat e.field_category &&
      decide (e.length_class = LengthClass.numericWidth digits.length))
  if exact.isEmpty then
    cat.filter (fun e =>
      isNumericCat e.field_category && decide (e.length_class = LengthClass.numericAny))
  else exact

/-- Modelled from the spec: classify one token (section 4.2).  Zero matches
make a quoted literal, one match a resolved code, several a choice; a number
with a glued non-digit suffix is looked up by its full text first, falling
back to numeric lookup of the digits with the suffix as trailing literal;
separator and whitespace runs are retained verbatim. -/
def classifyToken (cat : Catalog) (t : Token) : List PreSeg :=
  match t.kind with
  | .word =>
    match wordMatches cat t.raw_text with
    | [] => [.fixed (.litWord t.raw_text)]
    | [e] => [.fixed (.code e.code e.field_category t.raw_text)]
    | e :: e2 :: es => [.choice t.raw_text (e :: e2 :: es)]
  | .number =>
    let digits := t.raw_text.takeWhile Char.isDigit
    let suffix := t.raw_text.dropWhile Char.isDigit
    if suffix.isEmpty then
      match numericMatches cat digits with
      | [] => [.fixed (.litWord t.raw_text)]
      | [e] => [.fixed (.code e.code e.field_category t.raw_text)]
      | e :: e2 :: es => [.choice t.raw_text (e :: e2 :: es)]
    else
      match wordMatches cat t.raw_text with
      | [e] => [.fixed (.code e.code e.field_category t.raw_text)]
      | e :: e2 :: es => [.choice t.raw_text (e :: e2 :: es)]
      | [] =>
        match numericMatches cat digits with
        | [] => [.fixed (.litWord t.raw_text)]
        | [e] => [.fixed (.code e.code e.field_category digits), .fixed (.litWord suffix)]
        | e :: e2 :: es => [.choice digits (e :: e2 :: es), .fixed (.litWord suffix)]
  | .punctuation => [.fixed (.litRun t.raw_text)]
  | .whitespace => [.fixed (.litRun t.raw_text)]

/-- Classified draft of a whole token sequence. -/
def classifyDraft (cat : Catalog) (expr : List Char) : List PreSeg :=
  ((tokenize cat expr).map (classifyToken cat)).flatten

/-- Field categories already used by settled code segments of a draft
(auto-resolution rule 2 of spec section 4.3). -/
def draftResolvedCats (d : List PreSeg) : List FieldCategory :=
  d.filterMap (fun p => match p with
    | .fixed (.code _ cat _) => some cat
    | _ => none)

/-- Number of field-bearing positions of a draft (settled codes plus open
choices). -/
def draftFieldBearingCount (d : List PreSeg) : Nat :=
  (d.filter (fun p => match p with
    | .fixed (.code _ _ _) => true
    | .choice _ _ => true
    | _ => false)).length

/-- Unused-category candidates of auto-resolution rule 2. -/
def unusedCands (rCats : List FieldCategory) (cands : List CatalogEntry) :
    List CatalogEntry :=
  cands.filter (fun x => !(decide (x.field_category ∈ rCats)))

/-- Candidates whose context matches the preferred context of auto-resolution
rule 3 (Formatting by default, Standalone for an isolated token). -/
def preferredCtxCands (isolated : Bool) (cands : List CatalogEntry) :
    List CatalogEntry :=
  cands.filter (fun x =>
    decide (x.context = if isolated then UseContext.standalone else UseContext.formatting))

/-- Modelled from the spec: the Ambiguity Resolver's auto-resolution rules in
order (spec section 4.3): collapse when all candidates share one code; prefer
the single candidate whose category is not already used; when candidates
differ only by context prefer Formatting (Standalone for an isolated token);
otherwise leave the choice open (AwaitingSelection). -/
def autoResolveChoice (rCats : List FieldCategory) (isolated : Bool)
    (raw : List Char) (cands : List CatalogEntry) : PreSeg :=
  match cands with
  | [] => .fixed (.litWord raw)
  | e :: es =>
    if (e :: es).all (fun x => decide (x.code = e.code)) then
      .fixed (.code e.code e.field_category raw)
    else if (unusedCands rCats (e :: es)).length = 1 then
      .fixed (.code ((unusedCands rCats (e :: es)).headD e).code
        ((unusedCands rCats (e :: es)).headD e).field_category raw)
    else if ((e :: es).map (fun x => (x.field_category, x.length_class, x.code))).dedup.length = 1 then
      .fixed (.code ((preferredCtxCands isolated (e :: es)).headD e).code
        ((preferredCtxCands isolated (e :: es)).headD e).field_category raw)
    else .choice raw (e :: es)

/-- One auto-resolution pass over a classified draft. -/
def autoPass (d : List PreSeg) : List PreSeg :=
  d.map (fun p => match p with
    | .choice raw cands =>
      autoResolveChoice (draftResolvedCats d) (decide (draftFieldBearingCount d ≤ 1)) raw cands
    | f => f)

/-- Tokenize, classify and auto-resolve an expression against a catalog. -/
def analyzedDraft (cat : Catalog) (expr : List Char) : List PreSeg :=
  autoPass (classifyDraft cat expr)

/-! ## Ambiguity surfacing and the stateless follow-up (spec sections 4.3, 6) -/

/-- Option shape the single-expression endpoint sends per ambiguous position
(`{name, skeleton_code}`, `frontend/app/single/page.tsx` line 101). -/
structure AmbiguityOption where
  name : List Char
  skeleton_code : List Char
deriving DecidableEq

/-- Modelled from the spec: the stable human-readable label of a candidate,
derived from its reference id (spec section 4.3, "keyed by stable
human-readable labels"). -/
def mkLabel (e : CatalogEntry) : List Char := e.source_path

/-- Labeled option of one candidate. -/
def mkOption (e : CatalogEntry) : AmbiguityOption := ⟨mkLabel e, e.code⟩

/-- Open choices of a draft with their positions, starting at index `i`. -/
def awaitingGo : Nat → List PreSeg → List (Nat × List AmbiguityOption)
  | _, [] => []
  | i, .choice _ cands :: ps => (i, cands.map mkOption) :: awaitingGo (i + 1) ps
  | i, _ :: ps => awaitingGo (i + 1) ps

/-- Position-indexed map of unresolved choices of a draft. -/
def awaitingOf (d : List PreSeg) : List (Nat × List AmbiguityOption) :=
  awaitingGo 0 d

/-- Whether a draft still holds an open choice. -/
def hasChoice (d : List PreSeg) : Bool :=
  d.any (fun p => match p with
    | .choice _ _ => true
    | _ => false)

/-- Settle a draft position (an open choice falls back to its first
candidate; used only after all choices are closed or for the provisional
skeleton). -/
def presegToSeg : PreSeg → Segment
  | .fixed s => s
  | .choice raw [] => .litWord raw
  | .choice raw (e :: _) => .code e.code e.field_category raw

/-- Modelled from the spec: response of a single-expression request (spec
section 6): a final skeleton, a validation failure, or the ambiguity options
with the provisional skeleton. -/
inductive SingleResponse
  | final (skeleton : List Char)
  | ambiguous (english_skeleton : List Char)
      (ambiguity_options : List (Nat × List AmbiguityOption))
  | failed (e : ValidationError)
deriving DecidableEq

/-- Finalize a draft: surface options while a choice is open, otherwise
validate and render. -/
def finalizeDraft (d : List PreSeg) : SingleResponse :=
  if hasChoice d then
    .ambiguous (renderSkeleton (d.map presegToSeg)) (awaitingOf d)
  else
    match validateSkeleton (d.map presegToSeg) with
    | none => .final (renderSkeleton (d.map presegToSeg))
    | some e => .failed e

/-- Modelled from the spec: the single-expression request (spec section 6). -/
def processSingle (cat : Catalog) (expr : List Char) : SingleResponse :=
  finalizeDraft (analyzedDraft cat expr)

/-- Label selected for position `i`, if any. -/
def lookupSel (sel : List (Nat × List Char)) (i : Nat) : Option (List Char) :=
  (sel.find? (fun p => p.1 == i)).map Prod.snd

/-- Apply the selection for position `i` to one draft position: the candidate
bearing the selected label wins; a missing or unknown label leaves the choice
open. -/
def applyAt (sel : List (Nat × List Char)) (i : Nat) : PreSeg → PreSeg
  | .choice raw cands =>
    match lookupSel sel i with
    | some lbl =>
      match cands.filter (fun e => decide (mkLabel e = lbl)) with
      | e :: _ => .fixed (.code e.code e.field_category raw)
      | [] => .choice raw cands
    | none => .choice raw cands
  | f => f

/-- Apply selections across a draft, positions counted from `i`. -/
def applySelectionsGo (sel : List (Nat × List Char)) : Nat → List PreSeg → List PreSeg
  | _, [] => []
  | i, p :: ps => applyAt sel i p :: applySelectionsGo sel (i + 1) ps

/-- The follow-up request of the ambiguity flow, re-supplying all prior state
(`handleAmbiguityResolution`, `frontend/app/single/page.tsx` lines 120-172:
the raw expression, the provisional skeleton, the selections and the full
options map travel in the form). -/
structure FollowUpRequest where
  raw_expression : List Char
  english_skeleton : List Char
  ambiguity_selections : List (Nat × List Char)
  ambiguity_options : List (Nat × List AmbiguityOption)
deriving DecidableEq

/-- Modelled from the spec: the resolver of the follow-up call re-derives all
pending state from the caller-supplied raw expression and selections (spec
section 4.3: the resolver is stateless between calls). -/
def resolveSingle (cat : Catalog) (req : FollowUpRequest) : SingleResponse :=
  finalizeDraft (applySelectionsGo req.ambiguity_selections 0
    (analyzedDraft cat req.raw_expression))

/-- The client's initial selections: the first option's name per (non-empty)
position (`frontend/app/single/page.tsx` lines 96-106). -/
def initialSelections (options : List (Nat × List AmbiguityOption)) :
    List (Nat × List Char) :=
  options.filterMap (fun po => match po.2 with
    | [] => none
    | o :: _ => some (po.1, o.name))

/-- Whether a response still asks for a selection. -/
def isAmbiguousResp : SingleResponse → Bool
  | .ambiguous _ _ => true
  | _ => false

/-! ## Cross-Language Mapper (modelled from spec section 4.4) -/

/-- Modelled from the spec: fatal per-item error taxonomy (spec section 7). -/
inductive PipelineError
  | structuralMismatch
  | unresolvedAmbiguity
  | validation (e : ValidationError)
  | noValidSkeleton
deriving DecidableEq

/-- All settlements of a draft: the cartesian product over its open
choices. -/
def draftCombos : List PreSeg → List (List Segment)
  | [] => [[]]
  | .fixed s :: ps => (draftCombos ps).map (fun segs => s :: segs)
  | .choice raw cands :: ps =>
    (cands.map (fun e =>
      (draftCombos ps).map (fun segs => Segment.code e.code e.field_category raw :: segs))).flatten

/-- Number of field-bearing segments of a finalized skeleton. -/
def fieldCount (segs : List Segment) : Nat := (fieldCats segs).length

/-- Modelled from the spec: the Cross-Language Mapper (spec section 4.4).
The target expression is analyzed with the target catalog; a mismatch between
the field-bearing source segment count and the field-bearing target position
count is a structural-mismatch error; otherwise candidates are narrowed to the
source's field categories (kept whole when the source has no such category),
every remaining combination is validated and rendered, and the renders are
deduplicated. -/
def mapToTarget (srcSegs : List Segment) (tgtCat : Catalog) (tgtExpr : List Char) :
    Except PipelineError (List (List Char)) :=
  let draft := analyzedDraft tgtCat tgtExpr
  if draftFieldBearingCount draft ≠ fieldCount srcSegs then .error .structuralMismatch
  else
    let srcCats := fieldCats srcSegs
    let draft2 := draft.map (fun p => match p with
      | .choice raw cands =>
        match cands.filter (fun e => decide (e.field_category ∈ srcCats)) with
        | [] => PreSeg.choice raw cands
        | f :: fs => PreSeg.choice raw (f :: fs)
      | f => f)
    let renders := (((draftCombos draft2).filter
        (fun segs => decide (validateSkeleton segs = none))).map renderSkeleton).dedup
    match renders with
    | [] => .error .noValidSkeleton
    | r :: rs => .ok (r :: rs)

/-- Modelled from the spec: the pair request (spec section 6): the source
expression is analyzed and validated, then mapped onto the target
expression. -/
def processPair (srcCat tgtCat : Catalog) (eng tgt : List Char) :
    Except PipelineError (List Char × List (List Char)) :=
  let sdraft := analyzedDraft srcCat eng
  if hasChoice sdraft then .error .unresolvedAmbiguity
  else
    let ssegs := sdraft.map presegToSeg
    match validateSkeleton ssegs with
    | some e => .error (.validation e)
    | none => (mapToTarget ssegs tgtCat tgt).map (fun sks => (renderSkeleton ssegs, sks))

/-! ## Batch processing (modelled from spec section 6) -/

/-- Modelled from the spec: one batch input row (`ENGLISH`, `TARGET`, and the
opaque passthrough identifier). -/
structure BatchRow where
  english : List Char
  target : List Char
  rowId : List Char
deriving DecidableEq

deriving instance DecidableEq for Except

/-- Modelled from the spec: one batch output row — the passthrough identifier
plus that row's own success or per-item error. -/
structure BatchOutRow where
  rowId : List Char
  result : Except PipelineError (List Char × List (List Char))
deriving DecidableEq

/-- Process one batch row through the whole pipeline. -/
def processBatchRow (srcCat tgtCat : Catalog) (r : BatchRow) : BatchOutRow :=
  ⟨r.rowId, processPair srcCat tgtCat r.english r.target⟩

/-- Modelled from the spec: the batch request maps the per-row pipeline over
the rows; errors are per item and never abort the batch. -/
def processBatch (srcCat tgtCat : Catalog) (rows : List BatchRow) : List BatchOutRow :=
  rows.map (processBatchRow srcCat tgtCat)

/-! ## Concrete reference catalogs for the worked examples

Modelled from the spec: miniature English and Spanish Reference Catalogs in
the shape the data loader builds from the moderate spreadsheets (spec
sections 3 and 6). -/

/-- English wide month entry for January. -/
def enMonthJan : CatalogEntry :=
  ⟨"January".data, .month, .wide, .formatting, "MMMM".data,
    "months format wide m01".data⟩

/-- English abbreviated month entry for August. -/
def enMonthAug : CatalogEntry :=
  ⟨"Aug".data, .month, .abbreviated, .formatting, "MMM".data,
    "months format abbreviated m08".data⟩

/-- English numeric day-of-month entry (two-digit sample). -/
def enNumDay : CatalogEntry :=
  ⟨"16".data, .numericDay, .numericWidth 2, .formatting, "d".data,
    "fields day numeric".data⟩

/-- English numeric year entry (four-digit sample). -/
def enNumYear : CatalogEntry :=
  ⟨"2006".data, .numericYear, .numericWidth 4, .formatting, "y".data,
    "fields year numeric".data⟩

/-- Miniature English reference catalog. -/
def englishCatalog : Catalog := [enMonthJan, enMonthAug, enNumDay, enNumYear]

/-- Spanish wide month entry for enero. -/
def esMonthEnero : CatalogEntry :=
  ⟨"enero".data, .month, .wide, .formatting, "MMMM".data,
    "months format wide m01".data⟩

/-- Spanish numeric day entry with code `d` (two-digit sample). -/
def esNumDayD : CatalogEntry :=
  ⟨"16".data, .numericDay, .numericWidth 2, .formatting, "d".data,
    "fields day numeric d".data⟩

/-- Spanish numeric day entry with code `dd` (two-digit zero-padded sample). -/
def esNumDayDD : CatalogEntry :=
  ⟨"05".data, .numericDay, .numericWidth 2, .formatting, "dd".data,
    "fields day numeric dd".data⟩

/-- Spanish numeric year entry (four-digit sample). -/
def esNumYear : CatalogEntry :=
  ⟨"2006".data, .numericYear, .numericWidth 4, .formatting, "y".data,
    "fields year numeric".data⟩

/-- Miniature Spanish reference catalog. -/
def spanishCatalog : Catalog := [esMonthEnero, esNumDayD, esNumDayDD, esNumYear]

end LexRay

namespace LexRay

/-! ## Helper lemmas about trimming -/

theorem mem_of_mem_dropWhile {p : Char → Bool} {l : List Char} {a : Char}
    (h : a ∈ List.dropWhile p l) : a ∈ l :=
  (List.dropWhile_sublist p).subset h

theorem mem_of_mem_jsTrim {s : List Char} {a : Char} (h : a ∈ jsTrim s) : a ∈ s := by
  unfold jsTrim List.rdropWhile at h
  rw [List.mem_reverse] at h
  have h2 := mem_of_mem_dropWhile h
  rw [List.mem_reverse] at h2
  exact mem_of_mem_dropWhile h2

theorem dropWhile_jsTrim (s : List Char) : List.dropWhile isWS (jsTrim s) = jsTrim s := by
  -- the head of `jsTrim s` is the head of `dropWhile isWS s`, which fails `isWS`
  have hpre : jsTrim s <+: List.dropWhile isWS s := List.rdropWhile_prefix _ _
  obtain ⟨r, hr⟩ := hpre
  have hself : List.dropWhile isWS (List.dropWhile isWS s) = List.dropWhile isWS s :=
    List.dropWhile_idempotent _ _
  cases htrim : jsTrim s with
  | nil => rfl
  | cons a t =>
    rw [htrim] at hr
    rw [← hr] at hself
    rw [List.dropWhile_eq_self_iff] at hself
    have ha : isWS a = false := by
      have := hself (by simp)
      simpa using this
    simp [List.dropWhile_cons, ha]

theorem jsTrim_idem (s : List Char) : jsTrim (jsTrim s) = jsTrim s := by
  unfold jsTrim
  rw [show List.dropWhile isWS (List.rdropWhile isWS (List.dropWhile isWS s)) =
      List.rdropWhile isWS (List.dropWhile isWS s) from dropWhile_jsTrim s]
  exact List.rdropWhile_idempotent _ _

/-! ## Lemmas about the CSV line parser -/

theorem parseCSVLineAux_length (cs : List Char) :
    ∀ cur inQuotes, (parseCSVLineAux cs cur inQuotes).length =
      countUnquotedCommas cs inQuotes + 1 := by
  induction cs with
  | nil => intro cur inQuotes; simp [parseCSVLineAux, countUnquotedCommas]
  | cons c cs ih =>
    intro cur inQuotes
    rw [parseCSVLineAux, countUnquotedCommas]
    split
    · exact ih cur (!inQuotes)
    · split
      · simp [ih]
      · exact ih (c :: cur) inQuotes

theorem parseCSVLineAux_fields (cs : List Char) :
    ∀ cur inQuotes, '"' ∉ cur →
      ∀ f ∈ parseCSVLineAux cs cur inQuotes, jsTrim f = f ∧ '"' ∉ f := by
  induction cs with
  | nil =>
    intro cur inQuotes hq f hf
    simp only [parseCSVLineAux, List.mem_singleton] at hf
    subst hf
    refine ⟨jsTrim_idem _, fun hmem => ?_⟩
    exact hq (List.mem_reverse.mp (mem_of_mem_jsTrim hmem))
  | cons c cs ih =>
    intro cur inQuotes hq f hf
    rw [parseCSVLineAux] at hf
    split at hf
    · exact ih cur (!inQuotes) hq f hf
    · split at hf
      · rcases List.mem_cons.mp hf with hf | hf
        · subst hf
          refine ⟨jsTrim_idem _, fun hmem => ?_⟩
          exact hq (List.mem_reverse.mp (mem_of_mem_jsTrim hmem))
        · exact ih [] inQuotes (by simp) f hf
      · refine ih (c :: cur) inQuotes ?_ f hf
        intro hmem
        rcases List.mem_cons.mp hmem with h | h
        · rename_i hc _
          exact hc h.symm
        · exact hq h

/-! ## Lemmas about the skeleton option join and split -/

theorem splitSJAux_no_sep (s : List Char) :
    ∀ cur, hasSJ s = false → splitSJAux s cur = [cur.reverse ++ s] := by
  induction s with
  | nil => intro cur _; simp [splitSJAux]
  | cons c s' ih =>
    intro cur h
    cases s' with
    | nil => simp [splitSJAux]
    | cons d s'' =>
      rw [hasSJ] at h
      simp only [Bool.or_eq_false_iff, Bool.and_eq_false_iff, beq_eq_false_iff_ne] at h
      rw [splitSJAux, if_neg (by tauto)]
      rw [ih (c :: cur) h.2]
      simp

theorem splitSJAux_append (s : List Char) :
    ∀ cur t, hasSJ s = false →
      splitSJAux (s ++ sepSJ ++ t) cur = (cur.reverse ++ s) :: splitSJAux t [] := by
  induction s with
  | nil => intro cur t _; simp [sepSJ, splitSJAux]
  | cons c s' ih =>
    intro cur t h
    cases s' with
    | nil =>
      show splitSJAux (c :: ';' :: ' ' :: t) cur = _
      rw [splitSJAux, if_neg (by simp)]
      rw [show (';' :: ' ' :: t) = [] ++ sepSJ ++ t from rfl]
      rw [ih (c :: cur) t rfl]
      simp
    | cons d s'' =>
      rw [hasSJ] at h
      simp only [Bool.or_eq_false_iff, Bool.and_eq_false_iff, beq_eq_false_iff_ne] at h
      show splitSJAux (c :: d :: (s'' ++ sepSJ ++ t)) cur = _
      rw [splitSJAux, if_neg (by tauto)]
      rw [show (d :: (s'' ++ sepSJ ++ t)) = (d :: s'') ++ sepSJ ++ t from rfl]
      rw [ih (c :: cur) t h.2]
      simp

theorem splitSJ_joinSkeletons (l : List (List Char)) (hne : l ≠ [])
    (hs : ∀ s ∈ l, hasSJ s = false) : splitSJ (joinSkeletons l) = l := by
  induction l with
  | nil => exact absurd rfl hne
  | cons s rest ih =>
    cases rest with
    | nil =>
      show splitSJAux s [] = [s]
      rw [splitSJAux_no_sep s [] (hs s (by simp))]
      simp
    | cons s2 rest' =>
      show splitSJAux (s ++ sepSJ ++ joinSkeletons (s2 :: rest')) [] = _
      rw [splitSJAux_append s [] _ (hs s (by simp))]
      simp only [List.reverse_nil, List.nil_append]
      congr 1
      exact ih (by simp) (fun x hx => hs x (List.mem_cons_of_mem _ hx))

theorem renderSkeletonOptionList_joinSkeletons (l : List (List Char)) (hne : l ≠ [])
    (hs : ∀ s ∈ l, hasSJ s = false) (ht : ∀ s ∈ l, jsTrim s = s) (hn : ∀ s ∈ l, s ≠ []) :
    renderSkeletonOptionList (joinSkeletons l) = l := by
  unfold renderSkeletonOptionList
  rw [splitSJ_joinSkeletons l hne hs]
  rw [List.map_congr_left (fun s hsl => ht s hsl), List.map_id']
  rw [List.filter_eq_self.mpr]
  intro s hsl
  simpa [List.isEmpty_iff] using hn s hsl

/-! ## Claim theorems C1 and C10 -/

/-- C1: a textual analysis result made of more than one valid skeleton (each
skeleton free of the `"; "` substring) is the `"; "`-join of the options, and
splitting it on `"; "` as the display layer does recovers exactly the original
ordered option list; with trim-fixed nonempty skeletons the display layer's
full pipeline (split, trim, drop empties) also recovers the list. -/
theorem join_split_skeleton_options (l : List (List Char)) (hlen : 1 < l.length)
    (hs : ∀ s ∈ l, hasSJ s = false) :
    splitSJ (joinSkeletons l) = l ∧
      ((∀ s ∈ l, jsTrim s = s) → (∀ s ∈ l, s ≠ []) →
        renderSkeletonOptionList (joinSkeletons l) = l) := by
  have hne : l ≠ [] := by
    intro h
    rw [h] at hlen
    simp at hlen
  exact ⟨splitSJ_joinSkeletons l hne hs,
    fun ht hn => renderSkeletonOptionList_joinSkeletons l hne hs ht hn⟩

/-- Witness for C1: the two-option result `MMM d, y` and `d MMMM y`. -/
theorem join_split_skeleton_options_witness :
    renderSkeletonOptionList (joinSkeletons ["MMM d, y".data, "d MMMM y".data]) =
      ["MMM d, y".data, "d MMMM y".data] :=
  (join_split_skeleton_options ["MMM d, y".data, "d MMMM y".data]
    (by decide) (by decide)).2 (by decide) (by decide)

/-- C10: `parseCSVLine` always returns a non-empty field list whose length is
one plus the number of commas outside double quotes (the quote state toggling
on each `"`), and every returned field is whitespace-trimmed and contains no
double-quote character. -/
theorem parseCSVLine_fields_spec (line : List Char) :
    parseCSVLine line ≠ [] ∧
      (parseCSVLine line).length = countUnquotedCommas line false + 1 ∧
      ∀ f ∈ parseCSVLine line, jsTrim f = f ∧ '"' ∉ f := by
  refine ⟨?_, parseCSVLineAux_length line [] false, parseCSVLineAux_fields line [] false (by simp)⟩
  intro h
  have := parseCSVLineAux_length line [] false
  rw [show parseCSVLineAux line [] false = parseCSVLine line from rfl, h] at this
  simp at this

/-! ## Claim theorems C4 and C3 -/

/-- C4: GET /api/languages always answers with status 200; on a successful
directory read the body's languages are exactly the moderate-spreadsheet
basenames (suffix matched case-insensitively and stripped, "english"
excluded case-insensitively) sorted ascending by the locale-aware
comparison, with no error; on a read failure the body is an empty list plus
an error message, still with status 200. -/
theorem languagesGET_spec (cmp : List Char → List Char → Bool)
    (htrans : ∀ a b c, cmp a b = true → cmp b c = true → cmp a c = true)
    (htot : ∀ a b, (cmp a b || cmp b a) = true) :
    (∀ o, (languagesGET cmp o).status = 200) ∧
      (∀ entries, (languagesGET cmp (.ok entries)).languages.Perm (languagesListOf entries) ∧
        List.Pairwise (fun a b => cmp a b = true) (languagesGET cmp (.ok entries)).languages ∧
        (languagesGET cmp (.ok entries)).error = none) ∧
      (languagesGET cmp .fail).languages = [] ∧
      (languagesGET cmp .fail).error = some "Could not read CLDR languages".data := by
  refine ⟨fun o => ?_, fun entries => ⟨?_, ?_, rfl⟩, rfl, rfl⟩
  · cases o <;> rfl
  · exact List.mergeSort_perm (languagesListOf entries) cmp
  · exact List.sorted_mergeSort htrans htot (languagesListOf entries)

/-- Witness for C4 at a concrete directory listing and a concrete total
transitive comparator. -/
theorem languagesGET_spec_witness :
    (languagesGET (fun a b => decide (a.length ≤ b.length))
        (.ok [⟨"spanish_moderate.xlsx".data, true⟩, ⟨"english_moderate.xlsx".data, true⟩,
          ⟨"readme.md".data, true⟩, ⟨"french_MODERATE.XLSX".data, true⟩,
          ⟨"german_moderate.xlsx".data, false⟩])).languages.Perm
      (languagesListOf [⟨"spanish_moderate.xlsx".data, true⟩, ⟨"english_moderate.xlsx".data, true⟩,
        ⟨"readme.md".data, true⟩, ⟨"french_MODERATE.XLSX".data, true⟩,
        ⟨"german_moderate.xlsx".data, false⟩]) :=
  ((languagesGET_spec (fun a b => decide (a.length ≤ b.length))
      (fun a b c h1 h2 => by
        simp only [decide_eq_true_eq] at h1 h2 ⊢
        omega)
      (fun a b => by
        simp only [Bool.or_eq_true, decide_eq_true_eq]
        omega)).2.1
    [⟨"spanish_moderate.xlsx".data, true⟩, ⟨"english_moderate.xlsx".data, true⟩,
      ⟨"readme.md".data, true⟩, ⟨"french_MODERATE.XLSX".data, true⟩,
      ⟨"german_moderate.xlsx".data, false⟩]).1

/-- C3: the process proxy wraps the whole backend call in a single 90-second
timeout; when the timer fires the caller gets an ordinary result object with
`success = false` and the timeout message — the thrown `AbortError` never
escapes `callBackendAPI`, and every thrown error is turned into such a result
object.  (The core pipeline itself, modelled below as pure functions, has no
timeout of its own.) -/
theorem proxy_timeout_spec :
    BACKEND_TIMEOUT_MS = 90 * 1000 ∧
      fetchBackend .aborted = .error .abortError ∧
      callBackendAPI .aborted =
        { success := false, error := some timeoutMessage, csv_content := none } ∧
      ∀ o e, fetchBackend o = .error e →
        (callBackendAPI o).success = false ∧ (callBackendAPI o).error.isSome = true := by
  refine ⟨rfl, rfl, rfl, fun o e h => ?_⟩
  unfold callBackendAPI
  rw [h]
  cases e <;> simp

/-! ## Claim theorems C5, C6, C7, C9 -/

/-- C5: analyzing the English expression `January 16, 2006` yields exactly
the skeleton `MMMM d, y`, and the pair request with Spanish target
`16 de enero de 2006` yields a target-skeleton set including
`d 'de' MMMM 'de' y`. -/
theorem january_roundtrip_and_spanish_pair :
    processSingle englishCatalog "January 16, 2006".data = .final "MMMM d, y".data ∧
      ∃ sks, processPair englishCatalog spanishCatalog "January 16, 2006".data
          "16 de enero de 2006".data = .ok ("MMMM d, y".data, sks) ∧
        "d 'de' MMMM 'de' y".data ∈ sks := by
  refine ⟨rfl, ⟨["d 'de' MMMM 'de' y".data, "dd 'de' MMMM 'de' y".data], rfl, ?_⟩⟩
  simp

/-- C6: whenever the number of field-bearing source segments differs from the
number of field-bearing target positions after the target analysis, the
Cross-Language Mapper reports a structural mismatch — it never drops, pads or
auto-corrects into a skeleton result. -/
theorem mapper_structural_mismatch (srcSegs : List Segment) (tgtCat : Catalog)
    (tgtExpr : List Char)
    (h : draftFieldBearingCount (analyzedDraft tgtCat tgtExpr) ≠ fieldCount srcSegs) :
    mapToTarget srcSegs tgtCat tgtExpr = .error .structuralMismatch := by
  unfold mapToTarget
  rw [if_pos h]

/-- Witness for C6: the spec's example — English `Aug 10, 2025` (3 fields)
against a target exposing only 2 recognizable fields. -/
theorem mapper_structural_mismatch_witness :
    mapToTarget ((analyzedDraft englishCatalog "Aug 10, 2025".data).map presegToSeg)
        spanishCatalog "10 2025".data = .error .structuralMismatch :=
  mapper_structural_mismatch _ _ _ (by decide)

/-- C7: a finalized skeleton with two field-bearing segments of the same
field category fails validation with `DuplicateField`. -/
theorem validate_duplicate_field (segs : List Segment) (i j : Nat)
    (hi : i < (fieldCats segs).length) (hj : j < (fieldCats segs).length)
    (hij : i ≠ j)
    (heq : (fieldCats segs).get ⟨i, hi⟩ = (fieldCats segs).get ⟨j, hj⟩) :
    validateSkeleton segs = some .duplicateField := by
  unfold validateSkeleton
  rw [if_pos]
  intro hnodup
  have hinj := List.nodup_iff_injective_get.mp hnodup heq
  exact hij (congrArg Fin.val hinj)

/-- Witness for C7: a skeleton carrying both year codes `yy` and `y`. -/
theorem validate_duplicate_field_witness :
    validateSkeleton [Segment.code "yy".data .numericYear "06".data,
        Segment.litRun " ".data,
        Segment.code "y".data .numericYear "2006".data] = some .duplicateField :=
  validate_duplicate_field _ 0 1 (by decide) (by decide) (by decide) (by decide)

/-- C9: the batch output has exactly one row per input row, every output row
is a function of its own input row alone (no row can abort the batch or
change another row's result), and the opaque passthrough identifier is copied
unchanged. -/
theorem batch_rowwise_spec (srcCat tgtCat : Catalog) (rows : List BatchRow) (i : Nat) :
    (processBatch srcCat tgtCat rows).length = rows.length ∧
      (processBatch srcCat tgtCat rows)[i]? = rows[i]?.map (processBatchRow srcCat tgtCat) ∧
      ((processBatch srcCat tgtCat rows)[i]?).map BatchOutRow.rowId =
        rows[i]?.map BatchRow.rowId := by
  refine ⟨by simp [processBatch], List.getElem?_map _ _ _, ?_⟩
  rw [show processBatch srcCat tgtCat rows = rows.map (processBatchRow srcCat tgtCat) from rfl,
    List.getElem?_map]
  cases rows[i]? <;> rfl

/-! ## Tokenizer lemmas (claim C8) -/

theorem bestMW_fold_spec (cs : List Char) (l : List CatalogEntry) :
    ∀ acc, (∀ n, acc = some n →
        0 < n ∧ (cs.take n).all (fun ch => isLetterChar ch || ch == ' ') = true) →
      ∀ n, l.foldl (fun acc e =>
          if mwGuard e cs then
            match acc with
            | none => some e.text.length
            | some m => if m < e.text.length then some e.text.length else some m
          else acc) acc = some n →
        0 < n ∧ (cs.take n).all (fun ch => isLetterChar ch || ch == ' ') = true := by
  induction l with
  | nil => intro acc hacc n hn; exact hacc n (by simpa using hn)
  | cons e l ih =>
    intro acc hacc n
    rw [List.foldl_cons]
    apply ih
    intro m hm
    split at hm
    · rename_i hguard
      have hparts : e.text.contains ' ' = true ∧
          (cs.take e.text.length).all (fun ch => isLetterChar ch || ch == ' ') = true := by
        unfold mwGuard at hguard
        simp only [Bool.and_eq_true] at hguard
        exact ⟨hguard.1.1.1, hguard.2⟩
      have hpos : 0 < e.text.length := by
        have hmem : ' ' ∈ e.text := by
          have := hparts.1
          simpa [List.contains] using this
        exact List.length_pos.mpr (List.ne_nil_of_mem hmem)
      cases acc with
      | none =>
        simp only [Option.some.injEq] at hm
        exact hm ▸ ⟨hpos, hparts.2⟩
      | some k =>
        have hm2 : (if k < e.text.length then some e.text.length else some k) = some m := hm
        by_cases hkl : k < e.text.length
        · rw [if_pos hkl] at hm2
          simp only [Option.some.injEq] at hm2
          exact hm2 ▸ ⟨hpos, hparts.2⟩
        · rw [if_neg hkl] at hm2
          exact hacc m hm2
    · exact hacc m hm

theorem bestMultiWordLen_spec (cat : Catalog) (cs : List Char) (n : Nat)
    (hn : bestMultiWordLen cat cs = some n) :
    0 < n ∧ (cs.take n).all (fun ch => isLetterChar ch || ch == ' ') = true :=
  bestMW_fold_spec cs cat none (by intro m hm; cases hm) n hn

theorem nextTokenRaw_spec (cat : Catalog) (c : Char) (cs : List Char) :
    (nextTokenRaw cat c cs).1.1 ++ (nextTokenRaw cat c cs).2 = c :: cs ∧
      (nextTokenRaw cat c cs).1.1 ≠ [] := by
  unfold nextTokenRaw
  split
  · simp [List.takeWhile_append_dropWhile]
  · split
    · refine ⟨?_, by simp⟩
      simp only [List.cons_append, List.cons.injEq, true_and, List.append_assoc]
      rw [List.takeWhile_append_dropWhile, List.takeWhile_append_dropWhile]
    · split
      · split
        · rename_i n hn
          refine ⟨List.take_append_drop n (c :: cs), ?_⟩
          have hpos := (bestMultiWordLen_spec cat (c :: cs) n hn).1
          cases n with
          | zero => omega
          | succ m => simp
        · simp [List.takeWhile_append_dropWhile]
      · split
        · simp [List.takeWhile_append_dropWhile]
        · simp

theorem recognized_of_letter_or_space {ch : Char}
    (h : (isLetterChar ch || ch == ' ') = true) : isUnrecognizedSymbol ch = false := by
  simp only [Bool.or_eq_true, beq_iff_eq] at h
  rcases h with h | h
  · simp [isUnrecognizedSymbol, h]
  · subst h
    simp [isUnrecognizedSymbol, isWS]

theorem nextTokenRaw_unrec (cat : Catalog) (c : Char) (cs : List Char) (ch : Char)
    (hmem : ch ∈ (nextTokenRaw cat c cs).1.1) (hun : isUnrecognizedSymbol ch = true) :
    (nextTokenRaw cat c cs).1.2 = .punctuation ∧ (nextTokenRaw cat c cs).1.1 = [ch] := by
  by_cases h1 : isWS c = true
  · rw [nextTokenRaw, if_pos h1] at hmem
    exfalso
    have hws : isWS ch = true := by
      rcases List.mem_cons.mp hmem with h | h
      · exact h ▸ h1
      · exact List.mem_takeWhile_imp h
    simp [isUnrecognizedSymbol, hws] at hun
  · rw [nextTokenRaw, if_neg h1] at hmem ⊢
    by_cases h2 : c.isDigit = true
    · rw [if_pos h2] at hmem
      exfalso
      rcases List.mem_cons.mp hmem with h | h
      · subst h
        simp [isUnrecognizedSymbol, h2] at hun
      · rcases List.mem_append.mp h with h | h
        · have := List.mem_takeWhile_imp h
          simp [isUnrecognizedSymbol, this] at hun
        · have := List.mem_takeWhile_imp h
          simp [isUnrecognizedSymbol, this] at hun
    · rw [if_neg h2] at hmem ⊢
      by_cases h3 : isLetterChar c = true
      · rw [if_pos h3] at hmem
        exfalso
        rcases hbm : bestMultiWordLen cat (c :: cs) with _ | n
        · rw [hbm] at hmem
          simp only at hmem
          rcases List.mem_cons.mp hmem with h | h
          · subst h
            simp [isUnrecognizedSymbol, h3] at hun
          · have := List.mem_takeWhile_imp h
            simp [isUnrecognizedSymbol, this] at hun
        · rw [hbm] at hmem
          simp only at hmem
          have hall := (bestMultiWordLen_spec cat (c :: cs) n hbm).2
          have := List.all_eq_true.mp hall ch hmem
          rw [recognized_of_letter_or_space this] at hun
          cases hun
      · rw [if_neg h3] at hmem ⊢
        by_cases h4 : isKnownPunct c = true
        · rw [if_pos h4] at hmem
          exfalso
          rcases List.mem_cons.mp hmem with h | h
          · subst h
            simp [isUnrecognizedSymbol, h4] at hun
          · have := List.mem_takeWhile_imp h
            simp [isUnrecognizedSymbol, this] at hun
        · rw [if_neg h4] at hmem ⊢
          rcases List.mem_cons.mp hmem with h | h
          · exact ⟨rfl, by rw [h]⟩
          · cases h

theorem tokenizeAux_flatten (cat : Catalog) :
    ∀ (fuel pos : Nat) (cs : List Char), cs.length ≤ fuel →
      ((tokenizeAux cat fuel pos cs).map Token.raw_text).flatten = cs := by
  intro fuel
  induction fuel with
  | zero =>
    intro pos cs h
    have : cs = [] := List.eq_nil_of_length_eq_zero (by omega)
    subst this
    rfl
  | succ fuel ih =>
    intro pos cs h
    cases cs with
    | nil => rfl
    | cons c cs' =>
      simp only [tokenizeAux, List.map_cons, List.flatten_cons]
      have hspec := nextTokenRaw_spec cat c cs'
      have hlen : (nextTokenRaw cat c cs').2.length ≤ fuel := by
        have hlens := congrArg List.length hspec.1
        rw [List.length_append] at hlens
        have hr : 1 ≤ (nextTokenRaw cat c cs').1.1.length := by
          cases hh : (nextTokenRaw cat c cs').1.1 with
          | nil => exact absurd hh hspec.2
          | cons _ _ => simp
        simp only [List.length_cons] at h hlens
        omega
      rw [ih _ _ hlen]
      exact hspec.1

theorem tokenizeAux_tokens (cat : Catalog) :
    ∀ (fuel pos : Nat) (cs : List Char) (t : Token), t ∈ tokenizeAux cat fuel pos cs →
      t.raw_text ≠ [] ∧ ∀ ch ∈ t.raw_text, isUnrecognizedSymbol ch = true →
        t.kind = .punctuation ∧ t.raw_text = [ch] := by
  intro fuel
  induction fuel with
  | zero => intro pos cs t ht; cases ht
  | succ fuel ih =>
    intro pos cs t ht
    cases cs with
    | nil => cases ht
    | cons c cs' =>
      simp only [tokenizeAux, List.mem_cons] at ht
      rcases ht with ht | ht
      · subst ht
        exact ⟨(nextTokenRaw_spec cat c cs').2,
          fun ch hch hun => nextTokenRaw_unrec cat c cs' ch hch hun⟩
      · exact ih _ _ t ht

/-! ## Ambiguity flow lemmas (claim C2) -/

theorem autoResolveChoice_choice_ne_nil (rCats : List FieldCategory) (iso : Bool)
    (raw : List Char) (cands : List CatalogEntry) (raw2 : List Char)
    (cands2 : List CatalogEntry)
    (h : autoResolveChoice rCats iso raw cands = .choice raw2 cands2) : cands2 ≠ [] := by
  unfold autoResolveChoice at h
  cases cands with
  | nil => cases h
  | cons e es =>
    split at h
    · cases h
    · split at h
      · cases h
      · split at h
        · cases h
        · split at h
          · cases h
          · injection h with h1 h2
            rw [← h2]
            simp

theorem analyzedDraft_choice_ne_nil (cat : Catalog) (expr : List Char) (p : PreSeg)
    (hp : p ∈ analyzedDraft cat expr) (raw : List Char) (cands : List CatalogEntry)
    (heq : p = .choice raw cands) : cands ≠ [] := by
  unfold analyzedDraft autoPass at hp
  rcases List.mem_map.mp hp with ⟨q, hq, hfq⟩
  have heq2 := hfq.trans heq
  cases q with
  | fixed s => cases heq2
  | choice raw0 cands0 => exact autoResolveChoice_choice_ne_nil _ _ _ _ _ _ heq2

theorem awaitingGo_mem (d : List PreSeg) :
    ∀ (i : Nat) (po : Nat × List AmbiguityOption), po ∈ awaitingGo i d →
      ∃ raw cands, PreSeg.choice raw cands ∈ d ∧ po.2 = cands.map mkOption := by
  induction d with
  | nil => intro i po hpo; cases hpo
  | cons p ps ih =>
    intro i po hpo
    cases p with
    | fixed s =>
      rcases ih (i + 1) po hpo with ⟨raw, cands, hmem, hopts⟩
      exact ⟨raw, cands, List.mem_cons_of_mem _ hmem, hopts⟩
    | choice raw0 cands0 =>
      rw [awaitingGo] at hpo
      rcases List.mem_cons.mp hpo with h | h
      · exact ⟨raw0, cands0, List.mem_cons_self _ _, by rw [h]⟩
      · rcases ih (i + 1) po h with ⟨raw, cands, hmem, hopts⟩
        exact ⟨raw, cands, List.mem_cons_of_mem _ hmem, hopts⟩

theorem initialSelections_length (options : List (Nat × List AmbiguityOption))
    (h : ∀ po ∈ options, po.2 ≠ []) :
    (initialSelections options).length = options.length := by
  induction options with
  | nil => rfl
  | cons po rest ih =>
    cases hpo : po.2 with
    | nil => exact absurd hpo (h po (List.mem_cons_self _ _))
    | cons o os =>
      simp only [initialSelections, List.filterMap_cons, hpo]
      simp only [List.length_cons, Nat.succ.injEq]
      exact ih (fun q hq => h q (List.mem_cons_of_mem _ hq))

theorem applySelections_closes (sel : List (Nat × List Char)) (d : List PreSeg) :
    ∀ i, (∀ po ∈ awaitingGo i d, ∃ lbl, lookupSel sel po.1 = some lbl ∧
        lbl ∈ po.2.map AmbiguityOption.name) →
      hasChoice (applySelectionsGo sel i d) = false := by
  induction d with
  | nil => intro i _; rfl
  | cons p ps ih =>
    intro i h
    rw [applySelectionsGo]
    cases p with
    | fixed s =>
      have hrest := ih (i + 1) (fun po hpo => h po hpo)
      simpa [hasChoice, applyAt] using hrest
    | choice raw cands =>
      rcases h (i, cands.map mkOption) (by rw [awaitingGo]; exact List.mem_cons_self _ _)
        with ⟨lbl, hlook, hlbl⟩
      have hlook2 : lookupSel sel i = some lbl := hlook
      have hlbl2 : lbl ∈ (cands.map mkOption).map AmbiguityOption.name := hlbl
      have hex : ∃ e ∈ cands, mkLabel e = lbl := by
        rw [List.map_map] at hlbl2
        rcases List.mem_map.mp hlbl2 with ⟨e, he, hme⟩
        exact ⟨e, he, hme⟩
      rcases hex with ⟨e0, he0, hme0⟩
      cases hfil2 : cands.filter (fun e => decide (mkLabel e = lbl)) with
      | nil =>
        exfalso
        rw [List.filter_eq_nil_iff] at hfil2
        exact hfil2 e0 he0 (by simp [hme0])
      | cons f fs =>
        have hstep : applyAt sel i (.choice raw cands) =
            match cands.filter (fun e => decide (mkLabel e = lbl)) with
            | e :: _ => PreSeg.fixed (.code e.code e.field_category raw)
            | [] => PreSeg.choice raw cands := by
          unfold applyAt
          rw [hlook2]
        have happ : applyAt sel i (.choice raw cands) =
            .fixed (.code f.code f.field_category raw) := by
          rw [hstep, hfil2]
        have hrest := ih (i + 1) (fun po hpo =>
          h po (by rw [awaitingGo]; exact List.mem_cons_of_mem _ hpo))
        simpa [hasChoice, happ] using hrest

theorem finalizeDraft_ambiguous_inv (d : List PreSeg) (sk : List Char)
    (options : List (Nat × List AmbiguityOption))
    (h : finalizeDraft d = .ambiguous sk options) : options = awaitingOf d := by
  unfold finalizeDraft at h
  split at h
  · injection h with h1 h2
    exact h2.symm
  · split at h <;> cases h

theorem finalizeDraft_not_ambiguous (d : List PreSeg) (h : hasChoice d = false) :
    isAmbiguousResp (finalizeDraft d) = false := by
  unfold finalizeDraft
  rw [if_neg (by simp [h])]
  split <;> rfl

/-- C2: when a single-expression analysis is ambiguous, the response maps
every unresolved position to a non-empty list of labeled options (and the
client derives one initial selection per position); one follow-up request
carrying the raw expression, the provisional skeleton, the full options map
and a valid selection label per position completes the resolution — its
response asks for nothing further; and the resolver holds no state between
the calls: its answer depends only on the re-supplied raw expression and
selections. -/
theorem ambiguity_flow_stateless (cat : Catalog) (expr sk : List Char)
    (options : List (Nat × List AmbiguityOption))
    (hamb : processSingle cat expr = .ambiguous sk options) :
    (∀ po ∈ options, po.2 ≠ []) ∧
      (initialSelections options).length = options.length ∧
      (∀ sel : List (Nat × List Char),
        (∀ po ∈ options, ∃ lbl, lookupSel sel po.1 = some lbl ∧
          lbl ∈ po.2.map AmbiguityOption.name) →
        isAmbiguousResp (resolveSingle cat ⟨expr, sk, sel, options⟩) = false) ∧
      ∀ req req2 : FollowUpRequest, req.raw_expression = req2.raw_expression →
        req.ambiguity_selections = req2.ambiguity_selections →
        resolveSingle cat req = resolveSingle cat req2 := by
  have hopts : options = awaitingOf (analyzedDraft cat expr) :=
    finalizeDraft_ambiguous_inv _ _ _ hamb
  have hne : ∀ po ∈ options, po.2 ≠ [] := by
    intro po hpo
    rw [hopts] at hpo
    rcases awaitingGo_mem _ 0 po hpo with ⟨raw, cands, hmem, h2⟩
    rw [h2]
    intro hnil
    have hc : cands = [] := by simpa using hnil
    exact analyzedDraft_choice_ne_nil cat expr _ hmem raw cands rfl hc
  refine ⟨hne, initialSelections_length options hne, fun sel hsel => ?_,
    fun req req2 h1 h2 => by unfold resolveSingle; rw [h1, h2]⟩
  unfold resolveSingle
  apply finalizeDraft_not_ambiguous
  apply applySelections_closes
  intro po hpo
  exact hsel po (by rw [hopts]; exact hpo)

/-- Witness for C2: the Spanish expression `16 de enero de 2006` is ambiguous
between day codes `d` and `dd`; selecting the label of `d` in the follow-up
request completes the resolution. -/
theorem ambiguity_flow_stateless_witness :
    isAmbiguousResp (resolveSingle spanishCatalog
      ⟨"16 de enero de 2006".data, "d 'de' MMMM 'de' y".data,
        [(0, "fields day numeric d".data)],
        [(0, [⟨"fields day numeric d".data, "d".data⟩,
          ⟨"fields day numeric dd".data, "dd".data⟩])]⟩) = false :=
  (ambiguity_flow_stateless spanishCatalog "16 de enero de 2006".data
      "d 'de' MMMM 'de' y".data
      [(0, [⟨"fields day numeric d".data, "d".data⟩,
        ⟨"fields day numeric dd".data, "dd".data⟩])]
      (by decide)).2.2.1
    [(0, "fields day numeric d".data)]
    (by
      intro po hpo
      simp only [List.mem_singleton] at hpo
      subst hpo
      exact ⟨"fields day numeric d".data, by decide, by decide⟩)

/-- C8: tokenization is total and covers the whole input: the token texts
concatenate back to the input (no gaps, no overlaps), every token is
nonempty, and a token containing an unrecognized symbol is exactly that
single character classified as `punctuation`. -/
theorem tokenize_total_cover (cat : Catalog) (s : List Char) :
    ((tokenize cat s).map Token.raw_text).flatten = s ∧
      (∀ t ∈ tokenize cat s, t.raw_text ≠ []) ∧
      ∀ t ∈ tokenize cat s, ∀ ch ∈ t.raw_text, isUnrecognizedSymbol ch = true →
        t.kind = .punctuation ∧ t.raw_text = [ch] :=
  ⟨tokenizeAux_flatten cat s.length 0 s le_rfl,
    fun t ht => (tokenizeAux_tokens cat s.length 0 s t ht).1,
    fun t ht => (tokenizeAux_tokens cat s.length 0 s t ht).2⟩

end LexRay
